import Mathlib

/-!
Verification development for the VideoSEO trend-detection pipeline.

Python strings are modelled as `List Char`; text transformations follow the
source functions character by character (ASCII case mapping, the whitespace
set of `Char.isWhitespace`).  Floating point arithmetic of the source is
modelled as exact real arithmetic; `datetime` values are modelled as real
numbers measured in minutes.  External collaborators (database driver,
OpenAI gateway, sklearn DBSCAN, json codec, LLM phrase service) appear as
oracle parameters; everything implemented in the repository is embedded
directly.
-/

namespace VSEO

/-- Python str is modelled as a list of characters. -/
abbrev Str := List Char

/-- Whitespace test used by python str.split / str.strip (modelled with the
Lean character whitespace set). -/
def isWs (c : Char) : Bool := c.isWhitespace

/-- Trailing punctuation set stripped by the normalizer, from the source
literal in QueryNormalizationService.normalize: rstrip of question mark,
exclamation mark, period and comma. -/
def punctChars : List Char := ['?', '!', '.', ',']

/-- Python str.lower, restricted to ASCII case mapping. -/
def lowerStr (s : Str) : Str := s.map Char.toLower

/-- Python str.lstrip with no arguments: drop leading whitespace. -/
def lstripWs (s : Str) : Str := s.dropWhile isWs

/-- Python str.rstrip with no arguments: drop trailing whitespace. -/
def rstripWs (s : Str) : Str := (s.reverse.dropWhile isWs).reverse

/-- Python str.strip with no arguments. -/
def stripWs (s : Str) : Str := rstripWs (lstripWs s)

/-- Helper for splitWs: accumulates the current word in reverse. -/
def splitWsAux : Str → Str → List Str
  | [], acc => if acc = [] then [] else [acc.reverse]
  | c :: cs, acc =>
    if isWs c then
      if acc = [] then splitWsAux cs [] else acc.reverse :: splitWsAux cs []
    else
      splitWsAux cs (c :: acc)

/-- Python str.split with no arguments: split on whitespace runs, dropping
empty pieces. -/
def splitWs (s : Str) : List Str := splitWsAux s []

/-- Python sep.join for sep a single space: interleave one space between
pieces. -/
def joinSpace : List Str → Str
  | [] => []
  | [w] => w
  | w :: v :: ws => w ++ ' ' :: joinSpace (v :: ws)

/-- Python str.rstrip with the punctuation set of the normalizer. -/
def rstripPunct (s : Str) : Str :=
  (s.reverse.dropWhile (fun c => decide (c ∈ punctChars))).reverse

/-- QueryNormalizationService.normalize from
src/application/services/trending_search_service.py: lowercase and strip,
collapse internal whitespace via split plus single-space join, then strip
trailing punctuation. -/
def normalize (s : Str) : Str :=
  rstripPunct (joinSpace (splitWs (stripWs (lowerStr s))))

/-- Python str.capitalize, restricted to ASCII case mapping: first character
uppercased, all following characters lowercased.  Used on every phrase
returned by get_current_trends. -/
def pyCapitalize : Str → Str
  | [] => []
  | c :: cs => c.toUpper :: cs.map Char.toLower

/-- a word is good when it is nonempty and whitespace-free; python str.split
produces exactly such pieces. -/
def GoodWord (w : Str) : Prop := w ≠ [] ∧ ∀ c ∈ w, isWs c = false

/-! Real-arithmetic helpers shared by scoring and similarity search.
Python round(x, 4) uses round-half-to-even on the scaled value; numpy exp
and sqrt are modelled by the exact real functions. -/

noncomputable def halfEvenRound (y : ℝ) : ℤ :=
  if Int.fract y < 1/2 then ⌊y⌋
  else if 1/2 < Int.fract y then ⌈y⌉
  else if Even ⌊y⌋ then ⌊y⌋ else ⌈y⌉

noncomputable def round4 (x : ℝ) : ℝ := (halfEvenRound (x * 10000) : ℝ) / 10000

def dotList (u v : List ℝ) : ℝ := (List.zipWith (· * ·) u v).sum

noncomputable def cosineDist (u v : List ℝ) : ℝ :=
  1 - dotList u v / (Real.sqrt (dotList u u) * Real.sqrt (dotList v v))

def vecSum : List (List ℝ) → List ℝ
  | [] => []
  | [v] => v
  | v :: w :: vs => List.zipWith (· + ·) v (vecSum (w :: vs))

noncomputable def vecMean (vs : List (List ℝ)) : List ℝ :=
  (vecSum vs).map (fun x => x / (vs.length : ℝ))

noncomputable def argminAux : List ℝ → Nat → ℝ → Nat → Nat
  | [], _, _, best => best
  | x :: xs, i, bv, best => if x < bv then argminAux xs (i+1) x i else argminAux xs (i+1) bv best

/-- numpy argmin over a list of reals: index of the first minimum. -/
noncomputable def argminIdx : List ℝ → Nat
  | [] => 0
  | x :: xs => argminAux xs 1 x 0

structure NormQuery where
  original_query : Str
  chat_id : Nat
  created_at : ℝ
  query : Str

structure EmbQuery (V : Type) where
  base : NormQuery
  embedding : V

noncomputable instance : Inhabited NormQuery := ⟨⟨[], 0, 0, []⟩⟩

noncomputable instance : Inhabited (EmbQuery (List ℝ)) := ⟨⟨default, []⟩⟩

structure TrendingSearchConfig where
  BATCH_INTERVAL_MINUTES : Option ℝ := none
  MIN_CLUSTER_SIZE : Nat := 3
  DBSCAN_EPS : ℝ := 0.418182
  DBSCAN_MIN_SAMPLES : Nat := 2
  TOP_N_TRENDS : Nat := 20
  VOLUME_WEIGHT : ℝ := 0.6
  RECENCY_WEIGHT : ℝ := 0.4
  RECENCY_DECAY_MINUTES : ℝ := 5

noncomputable def defaultConfig : TrendingSearchConfig := {}

structure Trend where
  cluster_id : Nat
  representative_query : Str
  representative_query_generated : Option Str := none
  trend_score : ℝ
  query_count : Nat
  unique_query_count : Nat
  top_queries : List (Str × Nat)
  created_at : ℝ

/-- distinct texts in first-encounter order, as the keys of a python
Counter; only used for counts and the top-queries list. -/
def firstDedupAux : List Str → List Str → List Str
  | [], _ => []
  | a :: l, seen => if a ∈ seen then firstDedupAux l seen else a :: firstDedupAux l (a :: seen)

def firstDedup (l : List Str) : List Str := firstDedupAux l []

/-- TrendScoringService._calculate_trend_score: volume times weight plus
exponentially decayed recency times weight, rounded to 4 decimals.
Timestamps are minutes, matching total_seconds divided by 60. -/
noncomputable def calc_trend_score (cfg : TrendingSearchConfig) (cq : List (EmbQuery (List ℝ))) (now : ℝ) : ℝ :=
  round4 ((cq.length : ℝ) * cfg.VOLUME_WEIGHT +
    (cq.map (fun q => Real.exp (-((now - q.base.created_at) / cfg.RECENCY_DECAY_MINUTES)))).sum
      * cfg.RECENCY_WEIGHT)

/-- TrendScoringService._find_centroid_query: the member whose embedding
has minimal cosine distance to the arithmetic-mean centroid. -/
noncomputable def find_centroid_query (cq : List (EmbQuery (List ℝ))) : Str :=
  let embs := cq.map (·.embedding)
  let distances := embs.map (fun v => cosineDist v (vecMean embs))
  (cq.getD (argminIdx distances) default).base.query

/-- Counter(query_texts).most_common(5): counts sorted descending, ties in
first-encounter order, truncated to five. -/
def most_common5 (texts : List Str) : List (Str × Nat) :=
  (((firstDedup texts).map (fun t => (t, texts.count t))).insertionSort
    (fun a b => b.2 ≤ a.2)).take 5

/-- the loop body of TrendScoringService.score_and_rank_clusters for one
cluster: none when the cluster is below MIN_CLUSTER_SIZE, otherwise the
trend record built from its member queries.  The two datetime.now calls of
the source (scoring and the created_at field) are the one parameter now. -/
noncomputable def clusterTrend (cfg : TrendingSearchConfig) (qwe : List (EmbQuery (List ℝ)))
    (now : ℝ) (cl : Nat × List Nat) : Option Trend :=
  if cl.2.length < cfg.MIN_CLUSTER_SIZE then none
  else
    let cluster_queries := cl.2.map (fun i => qwe.getD i default)
    let texts := cluster_queries.map (fun q => q.base.query)
    some { cluster_id := cl.1
           representative_query := find_centroid_query cluster_queries
           trend_score := calc_trend_score cfg cluster_queries now
           query_count := cluster_queries.length
           unique_query_count := (firstDedup texts).length
           top_queries := most_common5 texts
           created_at := now }

/-- TrendScoringService.score_and_rank_clusters: build a trend per
qualifying cluster, sort by trend_score descending (python sorted with
reverse), truncate to TOP_N_TRENDS. -/
noncomputable def score_and_rank_clusters (cfg : TrendingSearchConfig)
    (clusters : List (Nat × List Nat)) (qwe : List (EmbQuery (List ℝ))) (now : ℝ) : List Trend :=
  ((clusters.filterMap (clusterTrend cfg qwe now)).insertionSort
    (fun a b => b.trend_score ≤ a.trend_score)).take cfg.TOP_N_TRENDS

-- concrete evaluation for witnesses

noncomputable def e0 : EmbQuery (List ℝ) := ⟨⟨['a'], 0, 0, ['a']⟩, [1]⟩

noncomputable def qwe0 : List (EmbQuery (List ℝ)) := [e0, e0, e0]

noncomputable def t0 : Trend :=
  { cluster_id := 0
    representative_query := ['a']
    trend_score := 3
    query_count := 3
    unique_query_count := 1
    top_queries := [(['a'], 3)]
    created_at := 0 }

/-! Vector similarity search, from search_similar_vectors in
src/adapters/postgres_database_adapter.py.  The pgvector operators are the
cosine distance for the selector string cosine and the L2 distance
otherwise; the SELECT list computes the distance column with the chosen
operator while the ORDER BY clause is fixed to the cosine operator.  The
SQL execution over the table rows is modelled by evaluating those
operators on the stored embeddings, sorting, limiting and rounding exactly
as the query text prescribes. -/

noncomputable def l2Dist (u v : List ℝ) : ℝ :=
  Real.sqrt ((List.zipWith (fun a b => (a - b)^2) u v).sum)

structure VideoSegment where
  video_id : Nat
  segment_start_time : ℝ
  segment_end_time : ℝ
  segment_text : Str
  segment_embedding : List ℝ

structure SearchResult where
  video_id : Nat
  segment_start_time : ℝ
  segment_end_time : ℝ
  segment_text : Str
  distance : ℝ

noncomputable def search_similar_vectors (rows : List VideoSegment)
    (query_embedding : List ℝ) (top_k : Nat) (similarity_algorithm : Str) :
    List SearchResult :=
  let op : List ℝ → List ℝ → ℝ :=
    if similarity_algorithm = "cosine".toList then cosineDist else l2Dist
  let sorted := rows.insertionSort (fun a b =>
    cosineDist a.segment_embedding query_embedding ≤
      cosineDist b.segment_embedding query_embedding)
  (sorted.take top_k).map (fun r =>
    { video_id := r.video_id
      segment_start_time := r.segment_start_time
      segment_end_time := r.segment_end_time
      segment_text := r.segment_text
      distance := round4 (op r.segment_embedding query_embedding) })

noncomputable def seg1 : VideoSegment := ⟨1, 0, 1, ['x'], [6, 8]⟩

noncomputable def seg2 : VideoSegment := ⟨2, 0, 1, ['y'], [3, 5]⟩

/-! Deduplicating vectorizer, from TrendingSearchAdapter._vectorize_queries.
The OpenAI gateway is an oracle parameter; the python builtin set is
modelled by List.dedup (the python iteration order over a set is
unspecified); the dict built by zipping unique texts with the returned
vectors is modelled by an association list, and a missing key raises
KeyError exactly as the dict subscript does. -/

def uniqueTexts (qs : List NormQuery) : List Str := (qs.map (fun q => q.query)).dedup

def alook {V : Type} : List (Str × V) → Str → Option V
  | [], _ => none
  | (k, v) :: rest, t => if t = k then some v else alook rest t

def attachEmbeddings {V : Type} (lookup : List (Str × V)) :
    List NormQuery → Except String (List (EmbQuery V))
  | [] => .ok []
  | q :: rest =>
    match alook lookup q.query with
    | none => .error "KeyError"
    | some v =>
      match attachEmbeddings lookup rest with
      | .ok out => .ok (⟨q, v⟩ :: out)
      | .error e => .error e

def vectorize_queries {V : Type} (gateway : List Str → Except String (List V))
    (qs : List NormQuery) : Except String (List (EmbQuery V)) :=
  match gateway (uniqueTexts qs) with
  | .error e => .error e
  | .ok embeddings => attachEmbeddings ((uniqueTexts qs).zip embeddings) qs

def vectorize_gateway_calls (qs : List NormQuery) : List (List Str) := [uniqueTexts qs]

def idxInList : List Str → Str → Nat
  | [], _ => 0
  | k :: ks, t => if t = k then 0 else idxInList ks t + 1

-- concrete witness data

noncomputable def nq (t : Str) : NormQuery := ⟨t, 0, 0, t⟩

noncomputable def qsA : List NormQuery := [nq ['a'], nq ['b'], nq ['a']]

def gA : List Str → Except String (List Nat) := fun _ => .ok [10, 20]

noncomputable def qsB : List NormQuery := [nq ['a'], nq ['b'], nq ['c'], nq ['d']]

def gB : List Str → Except String (List Nat) := fun _ => .ok [10, 20, 30]

/-! Ingestion, from ingest_queries in
src/adapters/postgres_database_adapter.py.  The table
video_seo_response_history is modelled as a list of rows; the SQL WHERE,
ORDER BY created_at DESC and LIMIT clauses are evaluated over that list.
SQL TRIM strips space characters only. -/

/-- a row of video_seo_response_history: query may be NULL. -/
structure DbRow where
  query : Option Str
  chat_id : Nat
  created_at : ℝ

/-- a raw ingested query dict as built by ingest_queries. -/
structure RawQuery where
  original_query : Str
  chat_id : Nat
  created_at : ℝ

/-- SQL TRIM with the default space character. -/
def sqlTrim (s : Str) : Str :=
  ((s.dropWhile (fun c => decide (c = ' '))).reverse.dropWhile
    (fun c => decide (c = ' '))).reverse

/-- WHERE query IS NOT NULL AND TRIM(query) is not the empty string. -/
def rowKept (r : DbRow) : Bool :=
  match r.query with
  | none => false
  | some q => decide (sqlTrim q ≠ [])

/-- projection of a kept row onto the returned dict. -/
def mkRawQuery (r : DbRow) : RawQuery := ⟨r.query.getD [], r.chat_id, r.created_at⟩

/-- ingest_queries: keep non-empty rows, keep only rows within the
batch-interval window when one is given (cutoff now minus the interval in
minutes), order by created_at descending, apply the LIMIT when given. -/
noncomputable def ingest_queries (now : ℝ) (batch_interval_minutes : Option ℝ)
    (max_rows : Option Nat) (db : List DbRow) : List RawQuery :=
  let base := db.filter rowKept
  let windowed := match batch_interval_minutes with
    | none => base
    | some m => base.filter (fun r => decide (now - m ≤ r.created_at))
  let sorted := windowed.insertionSort (fun a b => b.created_at ≤ a.created_at)
  let limited := match max_rows with
    | none => sorted
    | some k => sorted.take k
  limited.map mkRawQuery

/-! Pipeline orchestrator, from TrendingSearchAdapter.run_batch_pipeline.
The database read and write, the cluster stage (sklearn DBSCAN) and the
LLM enrichment are oracle parameters returning Except values; a python
exception raised by a stage corresponds to an error value.  The function
also returns the list of stages reached, to express short-circuiting.
datetime.now is modelled by the single parameter now, used both for
scoring and as the shared batch timestamp. -/

structure PipelineResult where
  status : String
  trends_identified : Nat
  total_queries_processed : Nat
  message : Option String := none
  error : Option String := none

/-- the except-branch result of run_batch_pipeline. -/
def errorResult (e : String) : PipelineResult :=
  { status := "error", trends_identified := 0, total_queries_processed := 0, error := some e }

/-- the normalize stage: attach the normalized text to every raw query. -/
def normalize_stage (raw : List RawQuery) : List NormQuery :=
  raw.map (fun r => ⟨r.original_query, r.chat_id, r.created_at, normalize r.original_query⟩)

noncomputable def run_batch_pipeline
    (ingestR : Except String (List RawQuery))
    (gateway : List Str → Except String (List (List ℝ)))
    (clusterO : List (EmbQuery (List ℝ)) → Except String (List (Nat × List Nat)))
    (enrichO : Trend → Except String Str)
    (persistO : List Trend → ℝ → Except String Unit)
    (cfg : TrendingSearchConfig) (now : ℝ) :
    PipelineResult × List String :=
  match ingestR with
  | .error e => (errorResult e, ["ingest"])
  | .ok raw =>
    if raw.isEmpty = true ∨ raw.length < cfg.MIN_CLUSTER_SIZE then
      ({ status := "success", trends_identified := 0, total_queries_processed := raw.length,
         message := some "Insufficient data for clustering" }, ["ingest"])
    else
      match vectorize_queries gateway (normalize_stage raw) with
      | .error e => (errorResult e, ["ingest", "normalize", "vectorize"])
      | .ok qwe =>
        match clusterO qwe with
        | .error e => (errorResult e, ["ingest", "normalize", "vectorize", "cluster"])
        | .ok clusters =>
          if clusters.isEmpty = true then
            ({ status := "success", trends_identified := 0,
               total_queries_processed := raw.length,
               message := some "No semantic clusters found" },
             ["ingest", "normalize", "vectorize", "cluster"])
          else
            let enriched := (score_and_rank_clusters cfg clusters qwe now).map (fun t =>
              match enrichO t with
              | .ok p => { t with representative_query_generated := some p }
              | .error _ => t)
            match persistO enriched now with
            | .error e => (errorResult e,
                ["ingest", "normalize", "vectorize", "cluster", "score", "enrich", "persist"])
            | .ok _ =>
              ({ status := "success", trends_identified := enriched.length,
                 total_queries_processed := raw.length },
               ["ingest", "normalize", "vectorize", "cluster", "score", "enrich", "persist"])

/-- the adapter call site: run_batch_pipeline reads its batch through
ingest_queries with the configured BATCH_INTERVAL_MINUTES and the literal
max_rows value 40. -/
noncomputable def run_batch_pipeline_db (db : List DbRow)
    (gateway : List Str → Except String (List (List ℝ)))
    (clusterO : List (EmbQuery (List ℝ)) → Except String (List (Nat × List Nat)))
    (enrichO : Trend → Except String Str)
    (persistO : List Trend → ℝ → Except String Unit)
    (cfg : TrendingSearchConfig) (now : ℝ) :
    PipelineResult × List String :=
  run_batch_pipeline (.ok (ingest_queries now cfg.BATCH_INTERVAL_MINUTES (some 40) db))
    gateway clusterO enrichO persistO cfg now

/-! Read path, from TrendingSearchAdapter.get_current_trends composed with
the database adapter row format: each stored trend row carries the
representative_query column under the key query, the generated phrase, and
a top_queries payload that may be a list or a serialized string.  The json
decoder and the LLM phrase service are oracles; the python json.loads may
raise, return a list, or return a non-list value. -/

/-- the top_queries payload of a stored trend row. -/
inductive TopQsField
  | missing
  | str (s : Str)
  | list (l : List Str)

/-- a trend row as returned by the database get_current_trends. -/
structure StoredTrend where
  query : Option Str
  representative_query_generated : Option Str
  trend_score : ℝ
  query_count : Nat
  unique_query_count : Nat
  top_queries : TopQsField
  created_at : ℝ
  batch_timestamp : ℝ

/-- the envelope returned by the database adapter get_current_trends. -/
structure DbTrendsResponse where
  status : String
  trends : List StoredTrend
  error : Option String := none

/-- the envelope returned by the pipeline adapter get_current_trends. -/
structure TrendsOut where
  status : String
  trending_searches : List Str
  error : Option String

/-- resolution of the top_queries payload into a list of texts: a list is
used as is, a string is json-decoded and kept when the decode yields a
list, otherwise the original string is wrapped in a singleton list, and a
missing value becomes the empty list. -/
def resolveTopQs (jsonO : Str → Except Unit (Option (List Str))) : TopQsField → List Str
  | .missing => []
  | .list l => l
  | .str s =>
    match jsonO s with
    | .ok (some l) => l
    | .ok none => [s]
    | .error _ => [s]

/-- the python or-chain over optional strings: the first value that is
present and nonempty, else the empty string. -/
def firstTruthy : List (Option Str) → Str
  | [] => []
  | o :: rest =>
    match o with
    | some s => if s = [] then firstTruthy rest else s
    | none => firstTruthy rest

/-- the phrase computed for one stored trend before capitalization: try the
phrase service on the resolved top queries, and fall back to the generated
phrase or the stored representative query when the service fails, returns
an empty phrase, or there is nothing to summarize.  The row dict has no
representative_query key, so that leg of the python or-chain is always
None. -/
def prePhrase (jsonO : Str → Except Unit (Option (List Str)))
    (svcO : List Str → Except String Str) (t : StoredTrend) : Str :=
  let top_qs := resolveTopQs jsonO t.top_queries
  let gen :=
    if top_qs.isEmpty = true then []
    else
      match svcO top_qs with
      | .ok p => p
      | .error _ => []
  if gen = [] then firstTruthy [t.representative_query_generated, t.query] else gen

/-- get_current_trends of the pipeline adapter over the database response
oracle: error envelopes pass through, and on success every trend is
decorated with its capitalized phrase. -/
def get_current_trends (dbR : Except String DbTrendsResponse)
    (svcO : List Str → Except String Str)
    (jsonO : Str → Except Unit (Option (List Str))) : TrendsOut :=
  match dbR with
  | .error e => ⟨"error", [], some e⟩
  | .ok resp =>
    if resp.status ≠ "success" then ⟨"error", [], resp.error⟩
    else ⟨"success", resp.trends.map (fun t => pyCapitalize (prePhrase jsonO svcO t)), none⟩

/-! Lemmas, claim theorems, counterexamples and witnesses, in the order
of the development above. -/

theorem toNat_ofNat_valid (n : Nat) (h : n.isValidChar) : (Char.ofNat n).toNat = n := by
  unfold Char.ofNat
  rw [dif_pos h]
  unfold Char.ofNatAux Char.toNat
  simp [UInt32.toNat, BitVec.toNat_ofNatLt]

theorem toLower_idem (c : Char) : Char.toLower (Char.toLower c) = Char.toLower c := by
  unfold Char.toLower
  by_cases h : c.toNat ≥ 65 ∧ c.toNat ≤ 90
  · rw [if_pos h]
    rw [toNat_ofNat_valid _ (Or.inl (by omega))]
    rw [if_neg (by omega)]
  · rw [if_neg h, if_neg h]

theorem toUpper_idem (c : Char) : Char.toUpper (Char.toUpper c) = Char.toUpper c := by
  unfold Char.toUpper
  by_cases h : c.toNat ≥ 97 ∧ c.toNat ≤ 122
  · rw [if_pos h]
    rw [toNat_ofNat_valid _ (Or.inl (by omega))]
    rw [if_neg (by omega)]
  · rw [if_neg h, if_neg h]

theorem splitWsAux_block (w : Str) (hw : ∀ c ∈ w, isWs c = false) :
    ∀ s acc, splitWsAux (w ++ s) acc = splitWsAux s (w.reverse ++ acc) := by
  induction w with
  | nil => intro s acc; simp
  | cons c cs ih =>
    intro s acc
    have hc : isWs c = false := hw c (by simp)
    have hcs : ∀ x ∈ cs, isWs x = false := fun x hx => hw x (by simp [hx])
    show splitWsAux (c :: (cs ++ s)) acc = _
    simp only [splitWsAux, hc, Bool.false_eq_true, if_false]
    rw [ih hcs s (c :: acc)]
    simp [List.append_assoc]

theorem splitWsAux_space (s : Str) (acc : Str) (hacc : acc ≠ []) :
    splitWsAux (' ' :: s) acc = acc.reverse :: splitWsAux s [] := by
  simp [splitWsAux, isWs, hacc]

theorem splitWs_word (w : Str) (hw : GoodWord w) : splitWs w = [w] := by
  show splitWsAux w [] = [w]
  have h := splitWsAux_block w hw.2 [] []
  rw [List.append_nil] at h
  rw [h]
  simp [splitWsAux, hw.1]

theorem splitWs_joinSpace (ps : List Str) (hps : ∀ w ∈ ps, GoodWord w) :
    splitWs (joinSpace ps) = ps := by
  induction ps with
  | nil => rfl
  | cons w ws ih =>
    have hw : GoodWord w := hps w (by simp)
    cases ws with
    | nil => exact splitWs_word w hw
    | cons v vs =>
      show splitWsAux (w ++ ' ' :: joinSpace (v :: vs)) [] = w :: v :: vs
      rw [splitWsAux_block w hw.2]
      rw [List.append_nil, splitWsAux_space _ _ (by simpa using hw.1)]
      rw [List.reverse_reverse]
      have h := ih (fun x hx => hps x (by simp [hx]))
      rw [show splitWsAux (joinSpace (v :: vs)) [] = splitWs (joinSpace (v :: vs)) from rfl, h]

theorem splitWsAux_good (s : Str) : ∀ acc, (∀ c ∈ acc, isWs c = false) →
    ∀ w ∈ splitWsAux s acc, GoodWord w := by
  induction s with
  | nil =>
    intro acc hacc w hw
    by_cases h : acc = []
    · simp [splitWsAux, h] at hw
    · simp only [splitWsAux, h, if_false, List.mem_singleton] at hw
      subst hw
      exact ⟨by simpa using h, fun c hc => hacc c (List.mem_reverse.mp hc)⟩
  | cons c cs ih =>
    intro acc hacc w hw
    by_cases h : isWs c
    · simp only [splitWsAux, h, if_true] at hw
      by_cases ha : acc = []
      · rw [if_pos ha] at hw
        exact ih [] (by simp) w hw
      · rw [if_neg ha] at hw
        rcases List.mem_cons.mp hw with h1 | h2
        · subst h1
          exact ⟨by simpa using ha, fun x hx => hacc x (List.mem_reverse.mp hx)⟩
        · exact ih [] (by simp) w h2
    · simp only [splitWsAux, h, if_false] at hw
      refine ih (c :: acc) ?_ w hw
      intro x hx
      rcases List.mem_cons.mp hx with h1 | h2
      · subst h1; simpa using h
      · exact hacc x h2

theorem splitWs_good (s : Str) : ∀ w ∈ splitWs s, GoodWord w :=
  splitWsAux_good s [] (by simp)

theorem splitWsAux_chars (s : Str) : ∀ acc w c, w ∈ splitWsAux s acc → c ∈ w →
    c ∈ s ∨ c ∈ acc := by
  induction s with
  | nil =>
    intro acc w c hw hc
    by_cases h : acc = []
    · simp [splitWsAux, h] at hw
    · simp only [splitWsAux, h, if_false, List.mem_singleton] at hw
      subst hw
      exact Or.inr (List.mem_reverse.mp hc)
  | cons a cs ih =>
    intro acc w c hw hc
    by_cases h : isWs a
    · simp only [splitWsAux, h, if_true] at hw
      by_cases ha : acc = []
      · rw [if_pos ha] at hw
        rcases ih [] w c hw hc with h1 | h2
        · exact Or.inl (by simp [h1])
        · simp at h2
      · rw [if_neg ha] at hw
        rcases List.mem_cons.mp hw with h1 | h2
        · subst h1
          exact Or.inr (List.mem_reverse.mp hc)
        · rcases ih [] w c h2 hc with h1 | h1
          · exact Or.inl (by simp [h1])
          · simp at h1
    · simp only [splitWsAux, h, if_false] at hw
      rcases ih (a :: acc) w c hw hc with h1 | h1
      · exact Or.inl (by simp [h1])
      · rcases List.mem_cons.mp h1 with h2 | h2
        · exact Or.inl (by simp [h2])
        · exact Or.inr h2

theorem splitWs_chars (s : Str) (w : Str) (c : Char) (hw : w ∈ splitWs s) (hc : c ∈ w) :
    c ∈ s := by
  rcases splitWsAux_chars s [] w c hw hc with h | h
  · exact h
  · simp at h

theorem joinSpace_chars (ps : List Str) (c : Char) (hc : c ∈ joinSpace ps) :
    (∃ w ∈ ps, c ∈ w) ∨ c = ' ' := by
  induction ps with
  | nil => simp [joinSpace] at hc
  | cons w ws ih =>
    cases ws with
    | nil =>
      exact Or.inl ⟨w, by simp, by simpa [joinSpace] using hc⟩
    | cons v vs =>
      simp only [joinSpace, List.mem_append, List.mem_cons] at hc
      rcases hc with h | h | h
      · exact Or.inl ⟨w, by simp, h⟩
      · exact Or.inr h
      · rcases ih h with ⟨u, hu, hcu⟩ | h2
        · exact Or.inl ⟨u, by simp [hu], hcu⟩
        · exact Or.inr h2

theorem joinSpace_cons (w : Str) (qs : List Str) (h : qs ≠ []) :
    joinSpace (w :: qs) = w ++ ' ' :: joinSpace qs := by
  cases qs with
  | nil => exact absurd rfl h
  | cons v vs => rfl

theorem good_of_sub (w y : Str) (hw : GoodWord w) (hy : y ≠ [])
    (hsub : ∀ c ∈ y, c ∈ w) : GoodWord y :=
  ⟨hy, fun c hc => hw.2 c (hsub c hc)⟩

/-- an initial segment of a space-joined word list that does not end in
whitespace is itself a space-join of good words. -/
theorem joinSpace_initial_decomp (ps : List Str) (hps : ∀ w ∈ ps, GoodWord w) :
    ∀ y r : Str, y ++ r = joinSpace ps → y ≠ [] →
    (∀ c, y.getLast? = some c → isWs c = false) →
    ∃ qs, (∀ w ∈ qs, GoodWord w) ∧ y = joinSpace qs := by
  induction ps with
  | nil =>
    intro y r heq hy _
    simp only [joinSpace] at heq
    exact absurd (List.append_eq_nil.mp heq).1 hy
  | cons w0 ws ih =>
    intro y r heq hy hlast
    have hw0 : GoodWord w0 := hps w0 (by simp)
    cases ws with
    | nil =>
      simp only [joinSpace] at heq
      refine ⟨[y], fun u hu => ?_, rfl⟩
      rw [List.mem_singleton] at hu
      subst hu
      exact good_of_sub w0 u hw0 hy (fun c hc => heq ▸ List.mem_append_left r hc)
    | cons v vs =>
      rw [joinSpace_cons w0 (v :: vs) (by simp)] at heq
      rcases List.append_eq_append_iff.mp heq with ⟨a, ha1, ha2⟩ | ⟨c', hc1, hc2⟩
      · refine ⟨[y], fun u hu => ?_, rfl⟩
        rw [List.mem_singleton] at hu
        subst hu
        exact good_of_sub w0 u hw0 hy (fun c hc => ha1 ▸ List.mem_append_left a hc)
      · cases c' with
        | nil =>
          rw [List.append_nil] at hc1
          refine ⟨[w0], fun u hu => ?_, by simpa [joinSpace] using hc1⟩
          rw [List.mem_singleton] at hu
          subst hu
          exact hw0
        | cons c0 y3 =>
          have hc0 : c0 = ' ' := by
            have h := congrArg List.head? hc2
            simpa using h.symm
          subst hc0
          have hy3r : y3 ++ r = joinSpace (v :: vs) := by
            have h := congrArg List.tail hc2
            simpa using h.symm
          cases y3 with
          | nil =>
            exfalso
            have hl : y.getLast? = some ' ' := by
              rw [hc1]
              exact List.getLast?_concat w0
            have h := hlast ' ' hl
            simp [isWs] at h
          | cons d ds =>
            have hlast3 : ∀ c, (d :: ds).getLast? = some c → isWs c = false := by
              intro c hc
              apply hlast c
              rw [hc1, List.getLast?_append]
              have h2 : (' ' :: d :: ds).getLast? = some c := by
                rw [List.getLast?_cons_cons]
                exact hc
              rw [h2]
              rfl
            rcases ih (fun u hu => hps u (by simp [hu])) (d :: ds) r hy3r (by simp) hlast3 with
              ⟨qs, hqs, hjoin⟩
            have hqsne : qs ≠ [] := by
              intro h
              subst h
              simp [joinSpace] at hjoin
            refine ⟨w0 :: qs, fun u hu => ?_, ?_⟩
            · rcases List.mem_cons.mp hu with h1 | h1
              · subst h1; exact hw0
              · exact hqs u h1
            · rw [joinSpace_cons w0 qs hqsne, hc1, hjoin]

theorem dropWhile_eq_self_of_head (p : Char → Bool) (l : Str)
    (h : ∀ c, l.head? = some c → p c = false) : l.dropWhile p = l := by
  cases l with
  | nil => rfl
  | cons a t => simp [List.dropWhile, h a rfl]

theorem rstripPunct_suffix_decomp (s : Str) : ∃ t, s = rstripPunct s ++ t := by
  refine ⟨(s.reverse.takeWhile (fun c => decide (c ∈ punctChars))).reverse, ?_⟩
  unfold rstripPunct
  rw [← List.reverse_append, List.takeWhile_append_dropWhile, List.reverse_reverse]

theorem rstripPunct_last (s : Str) :
    ∀ c, (rstripPunct s).getLast? = some c → decide (c ∈ punctChars) = false := by
  intro c hc
  unfold rstripPunct at hc
  rw [List.getLast?_reverse] at hc
  have h := List.head?_dropWhile_not (fun c => decide (c ∈ punctChars)) s.reverse
  rw [hc] at h
  exact h

theorem rstripPunct_eq_self (s : Str)
    (h : ∀ c, s.getLast? = some c → decide (c ∈ punctChars) = false) :
    rstripPunct s = s := by
  unfold rstripPunct
  rw [dropWhile_eq_self_of_head _ _ (fun c hc => h c (by rwa [List.head?_reverse] at hc)),
    List.reverse_reverse]

theorem rstripWs_eq_self (s : Str)
    (h : ∀ c, s.getLast? = some c → isWs c = false) : rstripWs s = s := by
  unfold rstripWs
  rw [dropWhile_eq_self_of_head _ _ (fun c hc => h c (by rwa [List.head?_reverse] at hc)),
    List.reverse_reverse]

theorem lstripWs_eq_self (s : Str)
    (h : ∀ c, s.head? = some c → isWs c = false) : lstripWs s = s :=
  dropWhile_eq_self_of_head _ _ h

theorem stripWs_subset (s : Str) : ∀ c ∈ stripWs s, c ∈ s := by
  intro c hc
  unfold stripWs rstripWs lstripWs at hc
  rw [List.mem_reverse] at hc
  have h1 := (List.dropWhile_sublist (l := (s.dropWhile isWs).reverse) isWs).subset hc
  rw [List.mem_reverse] at h1
  exact (List.dropWhile_sublist isWs).subset h1

/-- Claim C4 counterexample: the normalizer is not idempotent.  On the
input consisting of a letter, a space and a period, the rstrip of trailing
punctuation removes the final period but leaves the space that preceded
it, so a second application of normalize changes the string again. -/
theorem normalize_not_idempotent :
    normalize (normalize ('a' :: ' ' :: '.' :: [])) ≠ normalize ('a' :: ' ' :: '.' :: []) := by
  decide

/-- Claim C4 amended: the normalizer is idempotent on every input whose
normalized form has no trailing whitespace; equivalently, normalize is a
fixpoint exactly when stripping trailing punctuation did not expose a
space.  The hypothesis is stated on the last character of the already
normalized string. -/
theorem normalize_idempotent_of_no_trailing_ws (s : Str)
    (h : ((normalize s).getLast?.all fun c => ! isWs c) = true) :
    normalize (normalize s) = normalize s := by
  have hlastok : ∀ c, (normalize s).getLast? = some c → isWs c = false := by
    intro c hc
    rw [hc] at h
    simpa using h
  by_cases hy : normalize s = []
  · rw [hy]; rfl
  · obtain ⟨t, hzt⟩ := rstripPunct_suffix_decomp (joinSpace (splitWs (stripWs (lowerStr s))))
    have hgood : ∀ w ∈ splitWs (stripWs (lowerStr s)), GoodWord w :=
      splitWs_good (stripWs (lowerStr s))
    obtain ⟨qs, hqs, hyq⟩ :=
      joinSpace_initial_decomp _ hgood (normalize s) t hzt.symm hy hlastok
    have hlowfix : ∀ c ∈ normalize s, Char.toLower c = c := by
      intro c hc
      have hcz : c ∈ joinSpace (splitWs (stripWs (lowerStr s))) :=
        hzt ▸ List.mem_append_left t hc
      rcases joinSpace_chars _ c hcz with ⟨w, hw, hcw⟩ | hsp
      · have hcs : c ∈ stripWs (lowerStr s) := splitWs_chars _ w c hw hcw
        have hcl : c ∈ lowerStr s := stripWs_subset (lowerStr s) c hcs
        obtain ⟨d, _, hd⟩ := List.mem_map.mp hcl
        rw [← hd]
        exact toLower_idem d
      · subst hsp; rfl
    have hlow : lowerStr (normalize s) = normalize s := by
      unfold lowerStr
      exact List.map_congr_left (fun c hc => hlowfix c hc) |>.trans (List.map_id _)
    have hhead : ∀ c, (normalize s).head? = some c → isWs c = false := by
      intro c hc
      have hc2 : (rstripPunct (joinSpace (splitWs (stripWs (lowerStr s))))).head? = some c := hc
      have hz : (joinSpace (splitWs (stripWs (lowerStr s)))).head? = some c := by
        rw [hzt, List.head?_append, hc2]
        rfl
      cases hps : splitWs (stripWs (lowerStr s)) with
      | nil =>
        rw [hps] at hz
        simp [joinSpace] at hz
      | cons w ws =>
        rw [hps] at hz
        have hwg : GoodWord w := hgood w (by rw [hps]; simp)
        have hcw : c ∈ w := by
          cases ws with
          | nil =>
            simp only [joinSpace] at hz
            exact List.mem_of_mem_head? hz
          | cons v vs =>
            rw [joinSpace_cons w (v :: vs) (by simp), List.head?_append] at hz
            cases hwh : w.head? with
            | none => exact absurd (List.head?_eq_none_iff.mp hwh) hwg.1
            | some a =>
              rw [hwh] at hz
              simp only [Option.or_some, Option.some.injEq] at hz
              subst hz
              exact List.mem_of_mem_head? hwh
        exact hwg.2 c hcw
    have hstrip : stripWs (normalize s) = normalize s := by
      unfold stripWs
      rw [lstripWs_eq_self _ hhead, rstripWs_eq_self _ hlastok]
    have hsplit : splitWs (normalize s) = qs := by
      rw [hyq]
      exact splitWs_joinSpace qs hqs
    show rstripPunct (joinSpace (splitWs (stripWs (lowerStr (normalize s))))) = normalize s
    rw [hlow, hstrip, hsplit, ← hyq]
    exact rstripPunct_eq_self _ (rstripPunct_last _)

/-- Claim C4 witness: the amended idempotence theorem applied to the
concrete spec example input, whose normalized form has no trailing
whitespace. -/
theorem normalize_idempotent_witness :
    normalize (normalize "  What Is THIS??  ".toList) = normalize "  What Is THIS??  ".toList :=
  normalize_idempotent_of_no_trailing_ws "  What Is THIS??  ".toList (by decide)

theorem halfEvenRound_intCast (n : ℤ) : halfEvenRound (n : ℝ) = n := by
  unfold halfEvenRound
  rw [Int.fract_intCast]
  norm_num

theorem round4_eval (x : ℝ) (n : ℤ) (h : x * 10000 = (n : ℝ)) : round4 x = (n : ℝ) / 10000 := by
  unfold round4
  rw [h, halfEvenRound_intCast]

theorem halfEvenRound_nonneg (y : ℝ) (h : 0 ≤ y) : 0 ≤ halfEvenRound y := by
  unfold halfEvenRound
  have hf : (0:ℤ) ≤ ⌊y⌋ := Int.le_floor.mpr (by simpa using h)
  have hc : (0:ℤ) ≤ ⌈y⌉ := le_trans hf (Int.floor_le_ceil y)
  split_ifs <;> assumption

theorem round4_nonneg (x : ℝ) (h : 0 ≤ x) : 0 ≤ round4 x := by
  unfold round4
  have h2 := halfEvenRound_nonneg (x * 10000) (by positivity)
  positivity

theorem firstDedupAux_length_le (l : List Str) : ∀ seen, (firstDedupAux l seen).length ≤ l.length := by
  induction l with
  | nil => intro seen; simp [firstDedupAux]
  | cons a t ih =>
    intro seen
    unfold firstDedupAux
    by_cases h : a ∈ seen
    · rw [if_pos h]
      exact le_trans (ih seen) (by simp)
    · rw [if_neg h]
      simpa using ih (a :: seen)

theorem firstDedup_length_le (l : List Str) : (firstDedup l).length ≤ l.length :=
  firstDedupAux_length_le l []

/-- Claim C6: for every cluster map and embedded-query list,
score_and_rank_clusters returns only trends built from clusters with at
least MIN_CLUSTER_SIZE members, sorted in descending order of trend_score,
and truncated to at most TOP_N_TRENDS entries. -/
theorem score_and_rank_clusters_spec (cfg : TrendingSearchConfig)
    (clusters : List (Nat × List Nat)) (qwe : List (EmbQuery (List ℝ))) (now : ℝ) :
    (∀ t ∈ score_and_rank_clusters cfg clusters qwe now,
        ∃ cl ∈ clusters, t.cluster_id = cl.1 ∧ cfg.MIN_CLUSTER_SIZE ≤ cl.2.length ∧
          t.query_count = cl.2.length)
    ∧ (score_and_rank_clusters cfg clusters qwe now).Sorted
        (fun a b => b.trend_score ≤ a.trend_score)
    ∧ (score_and_rank_clusters cfg clusters qwe now).length ≤ cfg.TOP_N_TRENDS := by
  have htot : IsTotal Trend (fun a b => b.trend_score ≤ a.trend_score) :=
    ⟨fun a b => le_total b.trend_score a.trend_score⟩
  have htrans : IsTrans Trend (fun a b => b.trend_score ≤ a.trend_score) :=
    ⟨fun a b c hab hbc => le_trans hbc hab⟩
  refine ⟨?_, ?_, ?_⟩
  · intro t ht
    unfold score_and_rank_clusters at ht
    have ht2 := List.mem_of_mem_take ht
    rw [(List.perm_insertionSort _ _).mem_iff, List.mem_filterMap] at ht2
    obtain ⟨cl, hcl, hsome⟩ := ht2
    unfold clusterTrend at hsome
    by_cases hlen : cl.2.length < cfg.MIN_CLUSTER_SIZE
    · rw [if_pos hlen] at hsome
      exact absurd hsome (by simp)
    · rw [if_neg hlen] at hsome
      refine ⟨cl, hcl, ?_, Nat.le_of_not_lt hlen, ?_⟩
      · rw [← Option.some_inj.mp hsome]
      · rw [← Option.some_inj.mp hsome]
        simp
  · unfold score_and_rank_clusters
    exact (List.sorted_insertionSort _ _).sublist (List.take_sublist _ _)
  · unfold score_and_rank_clusters
    exact le_trans (List.length_take_le _ _) (le_refl _)

/-- Claim C8: every trend produced by the scoring engine has a non-negative
trend_score and satisfies unique_query_count less-or-equal query_count.
Stated for any configuration with non-negative volume and recency weights;
the shipped defaults are 0.6 and 0.4. -/
theorem trend_score_nonneg_and_unique_le (cfg : TrendingSearchConfig)
    (clusters : List (Nat × List Nat)) (qwe : List (EmbQuery (List ℝ))) (now : ℝ) (t : Trend)
    (hV : 0 ≤ cfg.VOLUME_WEIGHT) (hR : 0 ≤ cfg.RECENCY_WEIGHT)
    (ht : t ∈ score_and_rank_clusters cfg clusters qwe now) :
    0 ≤ t.trend_score ∧ t.unique_query_count ≤ t.query_count := by
  unfold score_and_rank_clusters at ht
  have ht2 := List.mem_of_mem_take ht
  rw [(List.perm_insertionSort _ _).mem_iff, List.mem_filterMap] at ht2
  obtain ⟨cl, hcl, hsome⟩ := ht2
  unfold clusterTrend at hsome
  by_cases hlen : cl.2.length < cfg.MIN_CLUSTER_SIZE
  · rw [if_pos hlen] at hsome
    exact absurd hsome (by simp)
  · rw [if_neg hlen] at hsome
    have ht3 := Option.some_inj.mp hsome
    constructor
    · rw [← ht3]
      show 0 ≤ calc_trend_score cfg _ now
      unfold calc_trend_score
      apply round4_nonneg
      have h1 : (0:ℝ) ≤ ((cl.2.map (fun i => qwe.getD i default)).length : ℝ) *
          cfg.VOLUME_WEIGHT := mul_nonneg (by positivity) hV
      have h2 : (0:ℝ) ≤ ((cl.2.map (fun i => qwe.getD i default)).map
          (fun q => Real.exp (-((now - q.base.created_at) / cfg.RECENCY_DECAY_MINUTES)))).sum :=
        List.sum_nonneg (by
          intro x hx
          obtain ⟨q, _, hq⟩ := List.mem_map.mp hx
          rw [← hq]
          exact le_of_lt (Real.exp_pos _))
      exact add_nonneg h1 (mul_nonneg h2 hR)
    · rw [← ht3]
      show (firstDedup _).length ≤ (cl.2.map (fun i => qwe.getD i default)).length
      calc (firstDedup ((cl.2.map (fun i => qwe.getD i default)).map (fun q => q.base.query))).length
          ≤ ((cl.2.map (fun i => qwe.getD i default)).map (fun q => q.base.query)).length :=
            firstDedup_length_le _
        _ = (cl.2.map (fun i => qwe.getD i default)).length := List.length_map _ _

theorem calc_concrete : calc_trend_score defaultConfig [e0, e0, e0] 0 = 3 := by
  unfold calc_trend_score defaultConfig e0
  simp only [List.map_cons, List.map_nil, List.sum_cons, List.sum_nil, List.length_cons,
    List.length_nil]
  norm_num [Real.exp_zero]
  rw [round4_eval 3 30000 (by norm_num)]
  norm_num

theorem centroid_concrete : find_centroid_query [e0, e0, e0] = ['a'] := by
  unfold find_centroid_query e0
  simp only [List.map_cons, List.map_nil]
  have hm : vecMean [[(1:ℝ)], [1], [1]] = [1] := by
    simp [vecMean, vecSum]
    norm_num
  rw [hm]
  have hd : cosineDist [(1:ℝ)] [1] = 0 := by
    unfold cosineDist dotList
    norm_num
  rw [hd]
  have ha : argminIdx [(0:ℝ), 0, 0] = 0 := by
    norm_num [argminIdx, argminAux]
  rw [ha]
  rfl

theorem clusterTrend_concrete : clusterTrend defaultConfig qwe0 0 (0, [0,1,2]) = some t0 := by
  have hmin : ¬ (((0:Nat), [0,1,2]).2.length < defaultConfig.MIN_CLUSTER_SIZE) := by
    simp [defaultConfig]
  unfold clusterTrend
  rw [if_neg hmin]
  have hcq : ((0:Nat), [(0:Nat),1,2]).2.map (fun i => qwe0.getD i default) = [e0, e0, e0] := by
    simp [qwe0]
  simp only [hcq]
  have htexts : [e0, e0, e0].map (fun q => q.base.query) = [['a'], ['a'], ['a']] := by
    simp [e0]
  simp only [htexts]
  have hfd : firstDedup [['a'], ['a'], ['a']] = [['a']] := by decide
  have hmc : most_common5 [['a'], ['a'], ['a']] = [(['a'], 3)] := by decide
  rw [calc_concrete, centroid_concrete, hfd, hmc]
  rfl

theorem score_concrete :
    score_and_rank_clusters defaultConfig [(0, [0,1,2])] qwe0 0 = [t0] := by
  unfold score_and_rank_clusters
  rw [List.filterMap_cons, clusterTrend_concrete, List.filterMap_nil]
  simp [List.insertionSort, List.orderedInsert, defaultConfig]

/-- Claim C6 witness: the C6 theorem applied at a concrete single-cluster
input of three identical embedded queries. -/
theorem score_and_rank_clusters_spec_witness :
    ∃ cl ∈ [((0:Nat), [(0:Nat),1,2])], t0.cluster_id = cl.1 ∧
      defaultConfig.MIN_CLUSTER_SIZE ≤ cl.2.length ∧ t0.query_count = cl.2.length :=
  (score_and_rank_clusters_spec defaultConfig [(0, [0,1,2])] qwe0 0).1 t0
    (by rw [score_concrete]; simp)

/-- Claim C8 witness: the C8 theorem applied at the same concrete input,
yielding a trend with score 3 and a unique count of 1 out of 3. -/
theorem trend_score_nonneg_and_unique_le_witness :
    0 ≤ t0.trend_score ∧ t0.unique_query_count ≤ t0.query_count :=
  trend_score_nonneg_and_unique_le defaultConfig [(0, [0,1,2])] qwe0 0 t0
    (by norm_num [defaultConfig]) (by norm_num [defaultConfig])
    (by rw [score_concrete]; simp)

theorem sqrt_25 : Real.sqrt 25 = 5 := by
  rw [show (25:ℝ) = 5^2 by norm_num]
  exact Real.sqrt_sq (by norm_num)

theorem sqrt_100 : Real.sqrt 100 = 10 := by
  rw [show (100:ℝ) = 10^2 by norm_num]
  exact Real.sqrt_sq (by norm_num)

theorem cos_seg1 : cosineDist seg1.segment_embedding [3, 4] = 0 := by
  show cosineDist [6, 8] [3, 4] = 0
  unfold cosineDist dotList
  norm_num
  rw [sqrt_100, sqrt_25]
  norm_num

theorem cos_seg2_pos : 0 < cosineDist seg2.segment_embedding [3, 4] := by
  show 0 < cosineDist [3, 5] [3, 4]
  unfold cosineDist dotList
  norm_num
  rw [sqrt_25]
  have h34 : (0:ℝ) < Real.sqrt 34 := Real.sqrt_pos.mpr (by norm_num)
  rw [div_lt_one (by positivity)]
  have : (29:ℝ)/5 < Real.sqrt 34 := by
    rw [show (34:ℝ) = 34 from rfl]
    rw [show (29:ℝ)/5 < Real.sqrt 34 ↔ ((29:ℝ)/5)^2 < 34 from Real.lt_sqrt (by norm_num)]
    norm_num
  nlinarith [this, h34]

theorem l2_seg1 : l2Dist seg1.segment_embedding [3, 4] = 5 := by
  show l2Dist [6, 8] [3, 4] = 5
  unfold l2Dist
  norm_num
  exact sqrt_25

theorem l2_seg2 : l2Dist seg2.segment_embedding [3, 4] = 1 := by
  show l2Dist [3, 5] [3, 4] = 1
  unfold l2Dist
  norm_num

theorem search_dist_eval :
    (search_similar_vectors [seg2, seg1] [3, 4] 2 "l2".toList).map
      (fun r => r.distance) = [5, 1] := by
  unfold search_similar_vectors
  rw [if_neg (by decide)]
  have hsort : [seg2, seg1].insertionSort (fun a b =>
      cosineDist a.segment_embedding [3,4] ≤ cosineDist b.segment_embedding [3,4]) =
      [seg1, seg2] := by
    show List.orderedInsert _ seg2 (List.orderedInsert _ seg1 []) = [seg1, seg2]
    rw [List.orderedInsert, List.orderedInsert]
    rw [if_neg (by rw [cos_seg1]; exact not_le.mpr cos_seg2_pos)]
    rfl
  rw [hsort]
  simp only [List.take, List.map]
  rw [l2_seg1, l2_seg2]
  rw [round4_eval 5 50000 (by norm_num), round4_eval 1 10000 (by norm_num)]
  norm_num

/-- Claim C2 evaluation at the failing input: with stored embeddings [3,5]
and [6,8] and query [3,4] under the non-cosine metric selector, the
function reports the distances [5, 1] in that order, which is not
ascending.  The SQL always orders rows by the cosine operator while the
reported distance column uses the selected operator, contradicting the
docstring of search_similar_vectors. -/
theorem search_similar_vectors_order_bug :
    (search_similar_vectors [seg2, seg1] [3, 4] 2 "l2".toList).map
      (fun r => r.distance) = [5, 1]
    ∧ ¬ ((search_similar_vectors [seg2, seg1] [3, 4] 2 "l2".toList).map
        (fun r => r.distance)).Sorted (· ≤ ·) := by
  refine ⟨search_dist_eval, ?_⟩
  rw [search_dist_eval]
  intro h
  have h2 := List.rel_of_sorted_cons h 1 (by simp)
  norm_num at h2

theorem alook_zip_of_mem {V : Type} (keys : List Str) (embs : List V) (t : Str)
    (hnd : keys.Nodup) (hlen : embs.length = keys.length) (ht : t ∈ keys) :
    alook (keys.zip embs) t = embs.get? (idxInList keys t) := by
  induction keys generalizing embs with
  | nil => simp at ht
  | cons k ks ih =>
    cases embs with
    | nil => simp at hlen
    | cons v vs =>
      have hz : (k :: ks).zip (v :: vs) = (k, v) :: ks.zip vs := rfl
      by_cases hk : t = k
      · subst hk
        rw [hz]
        show (if t = t then some v else alook (ks.zip vs) t) = _
        rw [if_pos rfl]
        show _ = (v :: vs).get? (if t = t then 0 else idxInList ks t + 1)
        rw [if_pos rfl]
        rfl
      · have htks : t ∈ ks := by
          rcases List.mem_cons.mp ht with h | h
          · exact absurd h hk
          · exact h
        rw [hz]
        show (if t = k then some v else alook (ks.zip vs) t) = _
        rw [if_neg hk, ih vs (List.nodup_cons.mp hnd).2 (by simpa using hlen) htks]
        show _ = (v :: vs).get? (if t = k then 0 else idxInList ks t + 1)
        rw [if_neg hk]
        rfl

theorem alook_zip_none {V : Type} (keys : List Str) (embs : List V)
    (hnd : keys.Nodup) (hlen : embs.length < keys.length) :
    ∃ t ∈ keys, alook (keys.zip embs) t = none := by
  induction embs generalizing keys with
  | nil =>
    cases keys with
    | nil => simp at hlen
    | cons k ks => exact ⟨k, by simp, by simp [alook, List.zip_nil_right]⟩
  | cons v vs ih =>
    cases keys with
    | nil => simp at hlen
    | cons k ks =>
      obtain ⟨hknotin, hksnd⟩ := List.nodup_cons.mp hnd
      obtain ⟨t, htks, hnone⟩ := ih ks hksnd (by simpa using hlen)
      refine ⟨t, by simp [htks], ?_⟩
      have hk : t ≠ k := fun h => hknotin (h ▸ htks)
      have hz : (k :: ks).zip (v :: vs) = (k, v) :: ks.zip vs := rfl
      rw [hz]
      show (if t = k then some v else alook (ks.zip vs) t) = none
      rw [if_neg hk, hnone]

theorem attachEmbeddings_ok {V : Type} (lookup : List (Str × V)) (qs : List NormQuery)
    (hall : ∀ q ∈ qs, ∃ v, alook lookup q.query = some v) :
    ∃ out, attachEmbeddings lookup qs = .ok out
      ∧ out.map (fun o => o.base) = qs
      ∧ ∀ o ∈ out, alook lookup o.base.query = some o.embedding := by
  induction qs with
  | nil => exact ⟨[], rfl, rfl, by simp⟩
  | cons q rest ih =>
    obtain ⟨v, hv⟩ := hall q (by simp)
    obtain ⟨out, hout, hmap, hemb⟩ := ih (fun x hx => hall x (by simp [hx]))
    refine ⟨⟨q, v⟩ :: out, ?_, by simp [hmap], ?_⟩
    · unfold attachEmbeddings
      rw [hv, hout]
    · intro o ho
      rcases List.mem_cons.mp ho with h | h
      · subst h
        exact hv
      · exact hemb o h

theorem attachEmbeddings_error {V : Type} (lookup : List (Str × V)) (qs : List NormQuery)
    (hsome : ∃ q ∈ qs, alook lookup q.query = none) :
    ∃ e, attachEmbeddings lookup qs = .error e := by
  induction qs with
  | nil => simp at hsome
  | cons q rest ih =>
    cases hq : alook lookup q.query with
    | none => exact ⟨"KeyError", by unfold attachEmbeddings; rw [hq]⟩
    | some v =>
      obtain ⟨x, hx, hxnone⟩ := hsome
      rcases List.mem_cons.mp hx with h | h
      · subst h
        rw [hq] at hxnone
        exact absurd hxnone (by simp)
      · obtain ⟨e, he⟩ := ih ⟨x, h, hxnone⟩
        refine ⟨e, ?_⟩
        unfold attachEmbeddings
        rw [hq, he]

theorem idxInList_lt_length (keys : List Str) (t : Str) (ht : t ∈ keys) :
    idxInList keys t < keys.length := by
  induction keys with
  | nil => simp at ht
  | cons k ks ih =>
    unfold idxInList
    by_cases hk : t = k
    · rw [if_pos hk]
      simp
    · rw [if_neg hk]
      have : t ∈ ks := by
        rcases List.mem_cons.mp ht with h | h
        · exact absurd h hk
        · exact h
      simpa using ih this

/-- Claim C3: the deduplicating vectorizer issues exactly one
embedding-gateway call, whose argument is the set of distinct normalized
texts; assuming the gateway returns one vector per distinct text, the
output preserves the input length, order and fields, and every record
carries the gateway vector for its normalized text (position
correspondence through the distinct list). -/
theorem vectorize_queries_dedup_spec {V : Type} (gateway : List Str → Except String (List V))
    (qs : List NormQuery) (embs : List V)
    (hg : gateway (uniqueTexts qs) = .ok embs)
    (hlen : embs.length = (uniqueTexts qs).length) :
    vectorize_gateway_calls qs = [uniqueTexts qs]
    ∧ (uniqueTexts qs).Nodup
    ∧ (∀ t, t ∈ uniqueTexts qs ↔ t ∈ qs.map (fun q => q.query))
    ∧ ∃ out, vectorize_queries gateway qs = .ok out
        ∧ out.map (fun o => o.base) = qs
        ∧ ∀ o ∈ out, some o.embedding = embs.get? (idxInList (uniqueTexts qs) o.base.query) := by
  have hnd : (uniqueTexts qs).Nodup := List.nodup_dedup _
  refine ⟨rfl, hnd, fun t => List.mem_dedup, ?_⟩
  have hall : ∀ q ∈ qs, ∃ v, alook ((uniqueTexts qs).zip embs) q.query = some v := by
    intro q hq
    have hmem : q.query ∈ uniqueTexts qs :=
      List.mem_dedup.mpr (List.mem_map.mpr ⟨q, hq, rfl⟩)
    rw [alook_zip_of_mem _ _ _ hnd hlen hmem]
    have hlt : idxInList (uniqueTexts qs) q.query < embs.length := by
      rw [hlen]
      exact idxInList_lt_length _ _ hmem
    cases hget : embs.get? (idxInList (uniqueTexts qs) q.query) with
    | none => exact absurd (List.get?_eq_none.mp hget) (Nat.not_le.mpr hlt)
    | some v => exact ⟨v, rfl⟩
  obtain ⟨out, hout, hmap, hemb⟩ := attachEmbeddings_ok ((uniqueTexts qs).zip embs) qs hall
  refine ⟨out, ?_, hmap, ?_⟩
  · unfold vectorize_queries
    rw [hg]
    exact hout
  · intro o ho
    have hbase : o.base ∈ qs := hmap ▸ List.mem_map.mpr ⟨o, ho, rfl⟩
    have hmem : o.base.query ∈ uniqueTexts qs :=
      List.mem_dedup.mpr (List.mem_map.mpr ⟨o.base, hbase, rfl⟩)
    rw [← alook_zip_of_mem _ _ _ hnd hlen hmem]
    exact (hemb o ho).symm

/-- Claim C5 amended: when the gateway returns fewer vectors than the
distinct-set size (in particular none at all for a nonempty input), the
vectorizer does not drop the affected entries: the attachment loop raises
KeyError for the first record whose text has no vector and the whole
vectorization fails, regardless of how many queries would remain. -/
theorem vectorize_queries_mismatch_errors {V : Type}
    (gateway : List Str → Except String (List V)) (qs : List NormQuery) (embs : List V)
    (hg : gateway (uniqueTexts qs) = .ok embs)
    (hlen : embs.length < (uniqueTexts qs).length) :
    ∃ e, vectorize_queries gateway qs = .error e := by
  obtain ⟨t, htu, hnone⟩ := alook_zip_none (uniqueTexts qs) embs (List.nodup_dedup _) hlen
  obtain ⟨q, hq, hqt⟩ := List.mem_map.mp (List.mem_dedup.mp htu)
  obtain ⟨e, he⟩ := attachEmbeddings_error ((uniqueTexts qs).zip embs) qs
    ⟨q, hq, by rw [hqt]; exact hnone⟩
  refine ⟨e, ?_⟩
  unfold vectorize_queries
  rw [hg]
  exact he

/-- Claim C3 witness: the theorem instantiated at three queries with two
distinct texts and a gateway returning two vectors. -/
theorem vectorize_queries_dedup_spec_witness :
    vectorize_gateway_calls qsA = [uniqueTexts qsA]
    ∧ (uniqueTexts qsA).Nodup
    ∧ (∀ t, t ∈ uniqueTexts qsA ↔ t ∈ qsA.map (fun q => q.query))
    ∧ ∃ out, vectorize_queries gA qsA = .ok out
        ∧ out.map (fun o => o.base) = qsA
        ∧ ∀ o ∈ out, some o.embedding = [10, 20].get? (idxInList (uniqueTexts qsA) o.base.query) :=
  vectorize_queries_dedup_spec gA qsA [10, 20] rfl rfl

/-- Claim C5 counterexample: with four distinct query texts and a gateway
returning only three vectors, the claim predicts the one affected entry is
dropped and the remaining three (at least MIN_CLUSTER_SIZE) survive;
instead the code fails the whole vectorization with a KeyError, and no
EmbeddingError type exists anywhere in the repository. -/
theorem vectorize_count_mismatch_counterexample :
    vectorize_queries gB qsB = .error "KeyError"
    ∧ defaultConfig.MIN_CLUSTER_SIZE ≤ 3 :=
  ⟨rfl, by norm_num [defaultConfig]⟩

/-- Claim C5 witness: the amended theorem applied at the same concrete
mismatching input. -/
theorem vectorize_queries_mismatch_errors_witness :
    ∃ e, vectorize_queries gB qsB = .error e :=
  vectorize_queries_mismatch_errors gB qsB [10, 20, 30] rfl (by decide)

/-- Claim C1: run_batch_pipeline never raises.  Every terminal outcome is a
structured result whose status is success with no error field, or error
with an error message; and whenever a fallible stage (ingest, vectorize,
cluster, persist) fails, the returned result is the status error record
carrying that message with zero counts.  The scoring stage is pure
arithmetic in this model and cannot fail; enrichment failures are
swallowed per trend and never surface. -/
theorem run_batch_pipeline_error_handling
    (ingestR : Except String (List RawQuery))
    (gateway : List Str → Except String (List (List ℝ)))
    (clusterO : List (EmbQuery (List ℝ)) → Except String (List (Nat × List Nat)))
    (enrichO : Trend → Except String Str)
    (persistO : List Trend → ℝ → Except String Unit)
    (cfg : TrendingSearchConfig) (now : ℝ) :
    ((run_batch_pipeline ingestR gateway clusterO enrichO persistO cfg now).1.status = "success"
        ∧ (run_batch_pipeline ingestR gateway clusterO enrichO persistO cfg now).1.error = none
      ∨ (run_batch_pipeline ingestR gateway clusterO enrichO persistO cfg now).1.status = "error"
        ∧ ∃ e, (run_batch_pipeline ingestR gateway clusterO enrichO persistO cfg now).1.error
            = some e)
    ∧ (∀ e, ingestR = .error e →
        (run_batch_pipeline ingestR gateway clusterO enrichO persistO cfg now).1 = errorResult e)
    ∧ (∀ raw e, ingestR = .ok raw →
        ¬ (raw.isEmpty = true ∨ raw.length < cfg.MIN_CLUSTER_SIZE) →
        vectorize_queries gateway (normalize_stage raw) = .error e →
        (run_batch_pipeline ingestR gateway clusterO enrichO persistO cfg now).1 = errorResult e)
    ∧ (∀ raw qwe e, ingestR = .ok raw →
        ¬ (raw.isEmpty = true ∨ raw.length < cfg.MIN_CLUSTER_SIZE) →
        vectorize_queries gateway (normalize_stage raw) = .ok qwe →
        clusterO qwe = .error e →
        (run_batch_pipeline ingestR gateway clusterO enrichO persistO cfg now).1 = errorResult e)
    ∧ (∀ raw qwe clusters e, ingestR = .ok raw →
        ¬ (raw.isEmpty = true ∨ raw.length < cfg.MIN_CLUSTER_SIZE) →
        vectorize_queries gateway (normalize_stage raw) = .ok qwe →
        clusterO qwe = .ok clusters → ¬ clusters.isEmpty = true →
        persistO ((score_and_rank_clusters cfg clusters qwe now).map (fun t =>
          match enrichO t with
          | .ok p => { t with representative_query_generated := some p }
          | .error _ => t)) now = .error e →
        (run_batch_pipeline ingestR gateway clusterO enrichO persistO cfg now).1
          = errorResult e) := by
  refine ⟨?_, ?_, ?_, ?_, ?_⟩
  · cases ingestR with
    | error e => exact Or.inr ⟨rfl, e, rfl⟩
    | ok raw =>
      simp only [run_batch_pipeline]
      by_cases h1 : raw.isEmpty = true ∨ raw.length < cfg.MIN_CLUSTER_SIZE
      · rw [if_pos h1]
        exact Or.inl ⟨rfl, rfl⟩
      · rw [if_neg h1]
        cases hv : vectorize_queries gateway (normalize_stage raw) with
        | error e => exact Or.inr ⟨rfl, e, rfl⟩
        | ok qwe =>
          dsimp only
          cases hc : clusterO qwe with
          | error e => exact Or.inr ⟨rfl, e, rfl⟩
          | ok clusters =>
            dsimp only
            by_cases h2 : clusters.isEmpty = true
            · rw [if_pos h2]
              exact Or.inl ⟨rfl, rfl⟩
            · rw [if_neg h2]
              cases hp : persistO ((score_and_rank_clusters cfg clusters qwe now).map (fun t =>
                  match enrichO t with
                  | .ok p => { t with representative_query_generated := some p }
                  | .error _ => t)) now with
              | error e => exact Or.inr ⟨rfl, e, rfl⟩
              | ok u => exact Or.inl ⟨rfl, rfl⟩
  · intro e h
    rw [h]
    rfl
  · intro raw e h1 h2 h3
    rw [h1]
    simp only [run_batch_pipeline]
    rw [if_neg h2, h3]
  · intro raw qwe e h1 h2 h3 h4
    rw [h1]
    simp only [run_batch_pipeline]
    rw [if_neg h2, h3]
    dsimp only
    rw [h4]
  · intro raw qwe clusters e h1 h2 h3 h4 h5 h6
    rw [h1]
    simp only [run_batch_pipeline]
    rw [if_neg h2, h3]
    dsimp only
    rw [h4]
    dsimp only
    rw [if_neg h5, h6]

/-- Claim C1 witness: a failing ingest stage produces the structured error
result. -/
theorem run_batch_pipeline_error_handling_witness :
    (run_batch_pipeline (.error "connection refused") (fun _ => .ok [])
        (fun _ => .ok []) (fun _ => .error "skip") (fun _ _ => .ok ())
        defaultConfig 0).1 = errorResult "connection refused" :=
  (run_batch_pipeline_error_handling (.error "connection refused") (fun _ => .ok [])
    (fun _ => .ok []) (fun _ => .error "skip") (fun _ _ => .ok ())
    defaultConfig 0).2.1 "connection refused" rfl

/-- Claim C7: a batch with fewer raw queries than MIN_CLUSTER_SIZE
short-circuits right after ingestion with a success result carrying zero
trends, the ingested count and the insufficient-data message; only the
ingest stage is reached. -/
theorem run_batch_pipeline_insufficient
    (ingestR : Except String (List RawQuery))
    (gateway : List Str → Except String (List (List ℝ)))
    (clusterO : List (EmbQuery (List ℝ)) → Except String (List (Nat × List Nat)))
    (enrichO : Trend → Except String Str)
    (persistO : List Trend → ℝ → Except String Unit)
    (cfg : TrendingSearchConfig) (now : ℝ)
    (raw : List RawQuery) (h1 : ingestR = .ok raw)
    (h2 : raw.length < cfg.MIN_CLUSTER_SIZE) :
    run_batch_pipeline ingestR gateway clusterO enrichO persistO cfg now =
      ({ status := "success", trends_identified := 0,
         total_queries_processed := raw.length,
         message := some "Insufficient data for clustering" }, ["ingest"]) := by
  rw [h1]
  simp only [run_batch_pipeline]
  rw [if_pos (Or.inr h2)]

/-- Claim C7 witness: the short-circuit theorem applied to a two-query
batch with the default minimum cluster size of three. -/
theorem run_batch_pipeline_insufficient_witness :
    run_batch_pipeline (.ok [⟨['a'], 0, 0⟩, ⟨['b'], 1, 0⟩]) (fun _ => .ok [])
        (fun _ => .ok []) (fun _ => .error "skip") (fun _ _ => .ok ())
        defaultConfig 0 =
      ({ status := "success", trends_identified := 0, total_queries_processed := 2,
         message := some "Insufficient data for clustering" }, ["ingest"]) :=
  run_batch_pipeline_insufficient (.ok [⟨['a'], 0, 0⟩, ⟨['b'], 1, 0⟩]) (fun _ => .ok [])
    (fun _ => .ok []) (fun _ => .error "skip") (fun _ _ => .ok ())
    defaultConfig 0 [⟨['a'], 0, 0⟩, ⟨['b'], 1, 0⟩] rfl (by decide)

/-- Claim C9: the pipeline reads its batch through ingest_queries with
max_rows 40 and the default BATCH_INTERVAL_MINUTES of none, so a batch is
the 40 newest non-empty queries of the entire stored history: the result
has at most 40 rows, is sorted newest first, is an initial segment of the
full created_at-descending ordering of all non-empty rows, every returned
row comes from a kept table row, and whenever at most 40 non-empty rows
exist the whole history is returned. -/
theorem ingest_queries_forty_newest (db : List DbRow) (now : ℝ)
    (gateway : List Str → Except String (List (List ℝ)))
    (clusterO : List (EmbQuery (List ℝ)) → Except String (List (Nat × List Nat)))
    (enrichO : Trend → Except String Str)
    (persistO : List Trend → ℝ → Except String Unit) :
    defaultConfig.BATCH_INTERVAL_MINUTES = none
    ∧ run_batch_pipeline_db db gateway clusterO enrichO persistO defaultConfig now
        = run_batch_pipeline (.ok (ingest_queries now none (some 40) db))
            gateway clusterO enrichO persistO defaultConfig now
    ∧ (ingest_queries now none (some 40) db).length ≤ 40
    ∧ ((ingest_queries now none (some 40) db).map (fun q => q.created_at)).Sorted
        (fun a b => b ≤ a)
    ∧ (∃ rest, ((db.filter rowKept).insertionSort
          (fun a b => b.created_at ≤ a.created_at)).map mkRawQuery
        = ingest_queries now none (some 40) db ++ rest)
    ∧ (∀ q ∈ ingest_queries now none (some 40) db,
        ∃ r ∈ db, rowKept r = true ∧ q = mkRawQuery r)
    ∧ ((db.filter rowKept).length ≤ 40 →
        (ingest_queries now none (some 40) db).length = (db.filter rowKept).length) := by
  have hsorted : ((db.filter rowKept).insertionSort
      (fun a b => b.created_at ≤ a.created_at)).Sorted
      (fun a b => b.created_at ≤ a.created_at) := by
    have htot : IsTotal DbRow (fun a b => b.created_at ≤ a.created_at) :=
      ⟨fun a b => le_total b.created_at a.created_at⟩
    have htrans : IsTrans DbRow (fun a b => b.created_at ≤ a.created_at) :=
      ⟨fun a b c hab hbc => le_trans hbc hab⟩
    exact List.sorted_insertionSort _ _
  have hperm := List.perm_insertionSort
    (fun (a b : DbRow) => b.created_at ≤ a.created_at) (db.filter rowKept)
  have hdef : ingest_queries now none (some 40) db
      = (((db.filter rowKept).insertionSort
          (fun a b => b.created_at ≤ a.created_at)).take 40).map mkRawQuery := rfl
  refine ⟨rfl, rfl, ?_, ?_, ?_, ?_, ?_⟩
  · rw [hdef, List.length_map]
    exact List.length_take_le _ _
  · rw [hdef, List.map_map]
    have hst : (((db.filter rowKept).insertionSort
        (fun a b => b.created_at ≤ a.created_at)).take 40).Sorted
        (fun a b => b.created_at ≤ a.created_at) :=
      hsorted.sublist (List.take_sublist _ _)
    exact List.Pairwise.map _ (fun a b h => h) hst
  · refine ⟨(((db.filter rowKept).insertionSort
        (fun a b => b.created_at ≤ a.created_at)).drop 40).map mkRawQuery, ?_⟩
    rw [hdef, ← List.map_append, List.take_append_drop]
  · intro q hq
    rw [hdef] at hq
    obtain ⟨r, hr, hrq⟩ := List.mem_map.mp hq
    have hr2 : r ∈ db.filter rowKept :=
      hperm.mem_iff.mp (List.mem_of_mem_take hr)
    exact ⟨r, List.mem_of_mem_filter hr2, List.of_mem_filter hr2, hrq.symm⟩
  · intro hle
    rw [hdef, List.length_map, List.length_take, hperm.length_eq]
    exact Nat.min_eq_right hle

/-- Claim C9 witness: the theorem applied to a one-row table, where the
short-history conjunct applies with a count of one. -/
theorem ingest_queries_forty_newest_witness :
    (ingest_queries 0 none (some 40) [⟨some ['a'], 0, 0⟩]).length
      = ([(⟨some ['a'], 0, 0⟩ : DbRow)].filter rowKept).length :=
  (ingest_queries_forty_newest [⟨some ['a'], 0, 0⟩] 0 (fun _ => .ok [])
    (fun _ => .ok []) (fun _ => .error "skip") (fun _ _ => .ok ())).2.2.2.2.2.2
    (by decide)

theorem pyCapitalize_head (p : Str) (c : Char) (hc : (pyCapitalize p).head? = some c) :
    Char.toUpper c = c := by
  cases p with
  | nil => simp [pyCapitalize] at hc
  | cons a rest =>
    simp only [pyCapitalize, List.head?_cons, Option.some.injEq] at hc
    rw [← hc]
    exact toUpper_idem a

theorem pyCapitalize_tail (p : Str) (c : Char) (hc : c ∈ (pyCapitalize p).drop 1) :
    Char.toLower c = c := by
  cases p with
  | nil => simp [pyCapitalize] at hc
  | cons a rest =>
    simp only [pyCapitalize, List.drop_succ_cons, List.drop_zero] at hc
    obtain ⟨d, _, hd⟩ := List.mem_map.mp hc
    rw [← hd]
    exact toLower_idem d

/-- Claim C10: every trending phrase returned by get_current_trends has
been passed through str.capitalize: it is the capitalization of the phrase
computed for some stored trend, its first character is fixed by toUpper
and every later character is fixed by toLower, so mixed-case phrases come
back lowercased after the first letter. -/
theorem get_current_trends_capitalized (dbR : Except String DbTrendsResponse)
    (svcO : List Str → Except String Str)
    (jsonO : Str → Except Unit (Option (List Str)))
    (s : Str) (hs : s ∈ (get_current_trends dbR svcO jsonO).trending_searches) :
    (∃ t, s = pyCapitalize (prePhrase jsonO svcO t))
    ∧ (∀ c, s.head? = some c → Char.toUpper c = c)
    ∧ (∀ c ∈ s.drop 1, Char.toLower c = c) := by
  have hmem : ∃ t, s = pyCapitalize (prePhrase jsonO svcO t) := by
    cases dbR with
    | error e => simp [get_current_trends] at hs
    | ok resp =>
      unfold get_current_trends at hs
      dsimp only at hs
      by_cases hst : resp.status ≠ "success"
      · rw [if_pos hst] at hs
        simp at hs
      · rw [if_neg hst] at hs
        obtain ⟨t, _, ht⟩ := List.mem_map.mp hs
        exact ⟨t, ht.symm⟩
  obtain ⟨t, ht⟩ := hmem
  refine ⟨⟨t, ht⟩, ?_, ?_⟩
  · intro c hc
    exact pyCapitalize_head _ c (ht ▸ hc)
  · intro c hc
    exact pyCapitalize_tail _ c (ht ▸ hc)

/-- Claim C10 witness: a stored trend whose generated phrase is the
mixed-case NASA Live comes back as Nasa live. -/
theorem get_current_trends_capitalized_witness :
    (∃ t, "Nasa live".toList = pyCapitalize (prePhrase (fun _ => .error ())
        (fun _ => .error "down") t))
    ∧ (∀ c, "Nasa live".toList.head? = some c → Char.toUpper c = c)
    ∧ (∀ c ∈ "Nasa live".toList.drop 1, Char.toLower c = c) :=
  get_current_trends_capitalized
    (.ok ⟨"success",
      [⟨some "pizza".toList, some "NASA Live".toList, 3, 3, 1, .missing, 0, 0⟩], none⟩)
    (fun _ => .error "down") (fun _ => .error ())
    "Nasa live".toList (by decide)

end VSEO
